import Mathlib

/-!
Verification of the product-quantized matrix storage subsystem of
finalfusion-rust (src/chunks/storage/quantized.rs), via a shallow
embedding of the code.

Modelling conventions:
- A byte stream is a `List Nat` of byte values together with an absolute
  cursor position; reads are bounds-checked (a short read is an I/O
  error), seeks are infallible (cursor semantics).
- An f32 value is represented by its 32-bit pattern (a `Nat` below
  2 ^ 32); the claims treated here are about bit-for-bit serialization,
  reconstruction structure and shapes, never about float arithmetic
  results.
- A Rust panic (process abort) is modelled by the distinguished error
  value `Err.panic`, produced only by the division operator when the
  divisor is zero; the recoverable errors of the code are the `io`,
  `typeMismatch` and `shape` values.
- The trainer (crate reductive) is an external collaborator; following
  the spec it is passed in as a capability where needed.
-/

set_option autoImplicit false

deriving instance DecidableEq for Except

namespace Finalfusion

universe u

/-- Error taxonomy of the storage subsystem: I/O errors carrying the
context string used at the call site, type-mismatch errors from tag
validation, shape errors from matrix construction, and (model-only)
`panic` marking a Rust process abort. -/
inductive Err : Type where
  | io : String → Err
  | typeMismatch : Err
  | shape : Err
  | panic : Err
deriving DecidableEq, Repr

/-- Row-major two-dimensional array, mirroring ndarray's Array2: declared
row and column counts plus the flat data. -/
structure Array2 (α : Type u) : Type u where
  rows : Nat
  cols : Nat
  data : List α
deriving DecidableEq, Repr

/-- Well-formedness of an Array2: the flat data has exactly rows * cols
entries. -/
def Array2.wf {α : Type u} (m : Array2 α) : Prop :=
  m.data.length = m.rows * m.cols

instance {α : Type u} (m : Array2 α) : Decidable m.wf := by
  unfold Array2.wf; infer_instance

/-- The empty Array2, used as the default for head lookups. -/
def Array2.empty (α : Type u) : Array2 α := ⟨0, 0, []⟩

/-- Row i of an Array2 (ndarray's row view), as the slice of the flat
data of length cols starting at i * cols. -/
def Array2.row {α : Type u} (m : Array2 α) (i : Nat) : List α :=
  (m.data.drop (i * m.cols)).take m.cols

/-- ndarray's Array2::from_shape_vec: succeeds iff the data length
matches the declared shape, otherwise a shape error (the map_err
Error::Shape at the call sites). -/
def from_shape_vec {α : Type u} (r c : Nat) (data : List α) : Except Err (Array2 α) :=
  if data.length = r * c then Except.ok ⟨r, c, data⟩ else Except.error Err.shape

/-- Product quantizer (reductive's PQ): optional projection matrix and
the ordered sub-codebooks. -/
structure PQ (α : Type u) : Type u where
  projection : Option (Array2 α)
  subquantizers : List (Array2 α)
deriving DecidableEq, Repr

/-- PQ::new constructor. -/
def PQ.new {α : Type u} (projection : Option (Array2 α)) (subquantizers : List (Array2 α)) :
    PQ α :=
  ⟨projection, subquantizers⟩

/-- Number of sub-quantizers M (reductive's quantized_len). -/
def PQ.quantized_len {α : Type u} (q : PQ α) : Nat :=
  q.subquantizers.length

/-- Number of centroids k per sub-codebook (reductive's
n_quantizer_centroids): the row count of the sub-codebooks. -/
def PQ.n_quantizer_centroids {α : Type u} (q : PQ α) : Nat :=
  (q.subquantizers.headD (Array2.empty α)).rows

/-- Reconstructed vector length d (reductive's reconstructed_len):
M times the sub-codebook width. -/
def PQ.reconstructed_len {α : Type u} (q : PQ α) : Nat :=
  q.subquantizers.length * (q.subquantizers.headD (Array2.empty α)).cols

/-- Modelled from the spec: reductive's ReconstructVector (external
crate) reconstructs a code row by concatenating, in sub-quantizer order,
the codebook row selected by each code. -/
def PQ.reconstruct_vector {α : Type u} (q : PQ α) (codeRow : List Nat) : List α :=
  (q.subquantizers.zip codeRow).flatMap (fun sc => sc.1.row sc.2)

/-- Quantized embedding matrix: quantizer, byte code matrix, optional
per-row norms. -/
structure QuantizedArray (α : Type u) : Type u where
  quantizer : PQ α
  quantized : Array2 Nat
  norms : Option (List α)
deriving DecidableEq, Repr

/-- Storage::embedding for QuantizedArray: reconstruct the code row of
index idx through the quantizer, scaling by norms[idx] when norms are
present. -/
def QuantizedArray.embedding {α : Type u} [Mul α] [Inhabited α]
    (a : QuantizedArray α) (idx : Nat) : List α :=
  let reconstructed := a.quantizer.reconstruct_vector (a.quantized.row idx)
  match a.norms with
  | some ns => reconstructed.map (fun x => x * ns.getD idx default)
  | none => reconstructed

/-- Storage::shape for QuantizedArray: (row count of the code matrix,
reconstructed length of the quantizer). -/
def QuantizedArray.shape {α : Type u} (a : QuantizedArray α) : Nat × Nat :=
  (a.quantized.rows, a.quantizer.reconstructed_len)

/-! ### Byte-level primitives -/

/-- Take exactly k elements from the front of a list, or fail. -/
def takeExact (k : Nat) (l : List Nat) : Option (List Nat) :=
  if (l.take k).length = k then some (l.take k) else none

/-- Read k bytes of the stream s at absolute position p. -/
def readBytes (s : List Nat) (p k : Nat) : Option (List Nat) :=
  takeExact k (s.drop p)

/-- Little-endian value of a byte list. -/
def decodeLE : List Nat → Nat
  | [] => 0
  | b :: bs => b + 256 * decodeLE bs

/-- Little-endian encoding of a u32 value (the low 32 bits, matching a
Rust `as u32` narrowing at the write sites). -/
def encodeU32 (w : Nat) : List Nat :=
  [w % 256, w / 256 % 256, w / 65536 % 256, w / 16777216 % 256]

/-- Little-endian encoding of a u64 value (the low 64 bits). -/
def encodeU64 (w : Nat) : List Nat :=
  [w % 256, w / 256 % 256, w / 65536 % 256, w / 16777216 % 256,
   w / 4294967296 % 256, w / 1099511627776 % 256,
   w / 281474976710656 % 256, w / 72057594037927936 % 256]

/-- Read a little-endian u32 at position p, returning the value and the
advanced position. -/
def readU32 (s : List Nat) (p : Nat) : Option (Nat × Nat) :=
  (readBytes s p 4).map (fun b => (decodeLE b, p + 4))

/-- Read a little-endian u64 at position p, returning the value and the
advanced position. -/
def readU64 (s : List Nat) (p : Nat) : Option (Nat × Nat) :=
  (readBytes s p 8).map (fun b => (decodeLE b, p + 8))

/-- Read count little-endian f32 bit patterns starting at position p
(read_f32_into at the call sites), returning the values and the advanced
position. -/
def readF32s (s : List Nat) (p : Nat) : Nat → Option (List Nat × Nat)
  | 0 => some ([], p)
  | c + 1 =>
    (readBytes s p 4).bind fun b =>
      (readF32s s (p + 4) c).map fun vr => (decodeLE b :: vr.1, vr.2)

/-- Read k raw bytes (read_exact), returning the bytes and the advanced
position. -/
def readRaw (s : List Nat) (p k : Nat) : Option (List Nat × Nat) :=
  (readBytes s p k).map (fun b => (b, p + k))

/-- Encode a list of f32 bit patterns as little-endian bytes. -/
def encodeF32s (ws : List Nat) : List Nat :=
  ws.flatMap encodeU32

/-- Rust division on usize: panics (aborts) when the divisor is zero. -/
def rustDiv (a b : Nat) : Except Err Nat :=
  if b = 0 then Except.error Err.panic else Except.ok (a / b)

/-- Modelled from the spec: crate::util::padding (not under src/),
specified in §4.1 as (width - pos mod width) mod width with width 4 for
f32 data. -/
def padding4 (pos : Nat) : Nat :=
  (4 - pos % 4) % 4

/-- Modelled from the spec: the reserved chunk identifier constant for
the quantized array chunk (ChunkIdentifier::QuantizedArray, defined in
chunks/io.rs which is not under src/). The concrete numeric value is
immaterial to the claims. -/
def quantizedArrayId : Nat := 4

/-- Modelled from the spec: the type identifier written for u8 code
entries (TypeId in chunks/io.rs, not under src/). -/
def u8TypeId : Nat := 1

/-- Modelled from the spec: the type identifier written for f32
reconstructed entries (TypeId in chunks/io.rs, not under src/). -/
def f32TypeId : Nat := 10

/-- Modelled from the spec: ChunkIdentifier::ensure_chunk_type (in
chunks/io.rs, not under src/) reads a u32 tag and fails with a
type-mismatch error when it differs from the expected identifier.
Returns the advanced position. -/
def ensure_chunk_type (s : List Nat) (p : Nat) (expected : Nat) : Except Err Nat :=
  match readU32 s p with
  | none => Except.error (Err.io "Cannot read chunk identifier")
  | some (v, p') =>
    if v = expected then Except.ok p' else Except.error Err.typeMismatch

/-- Modelled from the spec: TypeId::ensure_data_type (in chunks/io.rs,
not under src/) reads a u32 element-type tag and fails with a
type-mismatch error when it differs from the expected identifier. -/
def ensure_data_type (s : List Nat) (p : Nat) (expected : Nat) : Except Err Nat :=
  match readU32 s p with
  | none => Except.error (Err.io "Cannot read data type identifier")
  | some (v, p') =>
    if v = expected then Except.ok p' else Except.error Err.typeMismatch

/-! ### Decode path (QuantizedArray::read_chunk) -/

/-- The subquantizer-reading loop of read_chunk (the for-loop over
0..quantized_len): each iteration recomputes the sub-dimension
reconstructed_len / quantized_len (a Rust division, aborting on a zero
divisor), reads k * sub floats and rebuilds the codebook through
from_shape_vec. -/
def read_subquantizers (s : List Nat) (p : Nat) (count M k d : Nat) :
    Except Err (List (Array2 Nat) × Nat) :=
  match count with
  | 0 => Except.ok ([], p)
  | c + 1 =>
    match rustDiv d M with
    | Except.error e => Except.error e
    | Except.ok sub =>
      match readF32s s p (k * sub) with
      | none => Except.error (Err.io "Cannot read subquantizer")
      | some (v, p') =>
        match from_shape_vec k sub v with
        | Except.error e => Except.error e
        | Except.ok sq =>
          match read_subquantizers s p' c M k d with
          | Except.error e => Except.error e
          | Except.ok (rest, p'') => Except.ok (sq :: rest, p'')

/-- The optional projection read of read_chunk: when the flag is set,
read d * d floats and rebuild the projection matrix. -/
def read_projection (s : List Nat) (p : Nat) (flag : Bool) (d : Nat) :
    Except Err (Option (Array2 Nat) × Nat) :=
  if flag then
    match readF32s s p (d * d) with
    | none => Except.error (Err.io "Cannot read projection matrix")
    | some (v, p') =>
      match from_shape_vec d d v with
      | Except.error e => Except.error e
      | Except.ok m => Except.ok (some m, p')
  else Except.ok (none, p)

/-- The optional norms read of read_chunk: when the flag is set, read n
floats. -/
def read_norms (s : List Nat) (p : Nat) (flag : Bool) (n : Nat) :
    Except Err (Option (List Nat) × Nat) :=
  if flag then
    match readF32s s p n with
    | none => Except.error (Err.io "Cannot read norms")
    | some (v, p') => Except.ok (some v, p')
  else Except.ok (none, p)

/-- Body of read_chunk after the discarded chunk-length field: header
flags and dimensions, element-type tags, padding skip, projection,
subquantizers, norms and codes, ending in the constructed
QuantizedArray. Stream seeks are modelled as infallible cursor moves. -/
def read_body (s : List Nat) (p : Nat) : Except Err (QuantizedArray Nat × Nat) :=
  match readU32 s p with
  | none => Except.error (Err.io "Cannot read quantized embedding matrix projection")
  | some (projFlag, p3) =>
  match readU32 s p3 with
  | none => Except.error (Err.io "Cannot read quantized embedding matrix norms")
  | some (normsFlag, p4) =>
  match readU32 s p4 with
  | none => Except.error (Err.io "Cannot read quantized embedding length")
  | some (quantized_len, p5) =>
  match readU32 s p5 with
  | none => Except.error (Err.io "Cannot read reconstructed embedding length")
  | some (reconstructed_len, p6) =>
  match readU32 s p6 with
  | none => Except.error (Err.io "Cannot read number of subquantizers")
  | some (n_centroids, p7) =>
  match readU64 s p7 with
  | none => Except.error (Err.io "Cannot read number of quantized embeddings")
  | some (n_embeddings, p8) =>
  match ensure_data_type s p8 u8TypeId with
  | Except.error e => Except.error e
  | Except.ok p9 =>
  match ensure_data_type s p9 f32TypeId with
  | Except.error e => Except.error e
  | Except.ok p10 =>
  let n_padding := padding4 p10
  let p11 := p10 + n_padding
  match read_projection s p11 (projFlag != 0) reconstructed_len with
  | Except.error e => Except.error e
  | Except.ok (projection, p12) =>
  match read_subquantizers s p12 quantized_len quantized_len n_centroids reconstructed_len with
  | Except.error e => Except.error e
  | Except.ok (quantizers, p13) =>
  match read_norms s p13 (normsFlag != 0) n_embeddings with
  | Except.error e => Except.error e
  | Except.ok (norms, p14) =>
  match readRaw s p14 (n_embeddings * quantized_len) with
  | none => Except.error (Err.io "Cannot read quantized embeddings")
  | some (codesBytes, p15) =>
  match from_shape_vec n_embeddings quantized_len codesBytes with
  | Except.error e => Except.error e
  | Except.ok quantized =>
    Except.ok (⟨PQ.new projection quantizers, quantized, norms⟩, p15)

/-- QuantizedArray::read_chunk: validate the chunk type tag, read and
discard the declared payload length, then decode the body. The result
carries the final cursor position. -/
def read_chunk (s : List Nat) (pos : Nat) : Except Err (QuantizedArray Nat × Nat) :=
  match ensure_chunk_type s pos quantizedArrayId with
  | Except.error e => Except.error e
  | Except.ok p1 =>
    match readU64 s p1 with
    | none => Except.error (Err.io "Cannot read quantized embedding matrix chunk length")
    | some (_, p2) => read_body s p2

/-! ### Encode path (QuantizedArray::write_chunk) -/

/-- The analytically computed chunk size of write_chunk (the payload
byte count declared in the header), mirroring the source's sum: five
u32 fields, one u64 field, two u32 type tags, the padding computed at
the position right after the type tag, then the optional projection,
the codebooks, the optional norms and the codes. -/
def chunk_size (a : QuantizedArray Nat) (pos : Nat) : Nat :=
  let n_padding := padding4 (pos + 4)
  4 + 4 + 4 + 4 + 4 + 8 + 2 * 4 + n_padding
    + (if a.quantizer.projection.isSome then 1 else 0)
      * a.quantizer.reconstructed_len * a.quantizer.reconstructed_len * 4
    + a.quantizer.quantized_len * a.quantizer.n_quantizer_centroids
      * (a.quantizer.reconstructed_len / a.quantizer.quantized_len) * 4
    + (if a.norms.isSome then 1 else 0) * a.quantized.rows * 4
    + a.quantized.rows * a.quantizer.quantized_len

/-- The bytes of the optional projection section: the flat data of the
projection matrix as little-endian f32 values, nothing when absent. -/
def projection_bytes (proj : Option (Array2 Nat)) : List Nat :=
  match proj with
  | some m => encodeF32s m.data
  | none => []

/-- The bytes of the optional norms section: the norm values as
little-endian f32 values, nothing when absent. -/
def norms_bytes (norms : Option (List Nat)) : List Nat :=
  match norms with
  | some ns => encodeF32s ns
  | none => []

/-- QuantizedArray::write_chunk with the stream cursor at absolute
position pos: the exact byte sequence appended to the stream, in the
source's field order. Narrowing usize-to-u32 casts are absorbed by
encodeU32 keeping the low 32 bits. -/
def write_chunk (a : QuantizedArray Nat) (pos : Nat) : List Nat :=
  let n_padding := padding4 (pos + 4)
  encodeU32 quantizedArrayId
    ++ encodeU64 (chunk_size a pos)
    ++ encodeU32 (if a.quantizer.projection.isSome then 1 else 0)
    ++ encodeU32 (if a.norms.isSome then 1 else 0)
    ++ encodeU32 a.quantizer.quantized_len
    ++ encodeU32 a.quantizer.reconstructed_len
    ++ encodeU32 a.quantizer.n_quantizer_centroids
    ++ encodeU64 a.quantized.rows
    ++ encodeU32 u8TypeId
    ++ encodeU32 f32TypeId
    ++ List.replicate n_padding 0
    ++ projection_bytes a.quantizer.projection
    ++ encodeF32s ((a.quantizer.subquantizers.map Array2.data).flatten)
    ++ norms_bytes a.norms
    ++ a.quantized.data

/-! ### Quantize operation -/

/-- Dot product of two rows, as used by the row-norm computation. -/
def dot {α : Type u} [Mul α] [Add α] [Zero α] (xs ys : List α) : α :=
  (List.zipWith (fun a b => a * b) xs ys).sum

/-- The rows of an Array2 in order (ndarray's outer_iter). -/
def Array2.rowsList {α : Type u} (m : Array2 α) : List (List α) :=
  (List.range m.rows).map (fun i => m.row i)

/-- Quantize::quantize_using. Following the spec's design notes, the
trainer is an injected capability: train stands for
TrainPQ::train_pq_using at fixed hyperparameters and RNG, and
quantize_batch for QuantizeVector::quantize_batch; sqrtF is the float
square root used on the row dot products. When normalize is set, each
row is divided in place by its Euclidean norm and the norms are kept;
otherwise the source matrix is passed through unchanged (the borrowed
CowArray branch). -/
def quantize_using {α : Type u} [Mul α] [Add α] [Zero α] [Div α]
    (train : Array2 α → PQ α)
    (quantize_batch : PQ α → Array2 α → Array2 Nat)
    (sqrtF : α → α)
    (src : Array2 α) (normalize : Bool) : QuantizedArray α :=
  let pair : Array2 α × Option (List α) :=
    if normalize then
      let norms := src.rowsList.map (fun e => sqrtF (dot e e))
      let normalized : Array2 α :=
        ⟨src.rows, src.cols,
         ((src.rowsList.zip norms).map (fun en => en.1.map (fun x => x / en.2))).flatten⟩
      (normalized, some norms)
    else (src, none)
  let quantizer := train pair.1
  let quantized := quantize_batch quantizer pair.1
  ⟨quantizer, quantized, pair.2⟩

/-! ### The Quantizer and Quantized Matrix invariants of spec section 3 -/

/-- Byte bound for u8 code entries. -/
def u8Bound : Nat := 256

/-- Bound for u32 fields and f32 bit patterns. -/
def u32Bound : Nat := 4294967296

/-- Bound for u64 fields. -/
def u64Bound : Nat := 18446744073709551616

/-- The invariants of a quantized matrix (spec section 3), as a
decidable check: at least one sub-codebook, all sub-codebooks of the
common shape (k, d/M) with representable f32 entries, an optional
well-formed d-by-d projection, a well-formed codes matrix with M
columns and byte entries, norms (when present) of length equal to the
code row count, and representable header fields. -/
def ValidQAb (a : QuantizedArray Nat) : Bool :=
  decide (0 < a.quantizer.subquantizers.length) &&
  a.quantizer.subquantizers.all (fun sq =>
    decide (sq.rows = a.quantizer.n_quantizer_centroids) &&
    decide (sq.cols = (a.quantizer.subquantizers.headD (Array2.empty Nat)).cols) &&
    decide sq.wf &&
    sq.data.all (fun x => decide (x < u32Bound))) &&
  (match a.quantizer.projection with
   | some m =>
     decide (m.rows = a.quantizer.reconstructed_len) &&
     decide (m.cols = a.quantizer.reconstructed_len) &&
     decide m.wf && m.data.all (fun x => decide (x < u32Bound))
   | none => true) &&
  decide (a.quantized.cols = a.quantizer.quantized_len) &&
  decide a.quantized.wf &&
  a.quantized.data.all (fun x => decide (x < u8Bound)) &&
  (match a.norms with
   | some ns => decide (ns.length = a.quantized.rows) &&
       ns.all (fun x => decide (x < u32Bound))
   | none => true) &&
  decide (a.quantizer.n_quantizer_centroids < u32Bound) &&
  decide (a.quantizer.reconstructed_len < u32Bound) &&
  decide (a.quantizer.quantized_len < u32Bound) &&
  decide (a.quantized.rows < u64Bound)

/-! ### Serialization lemmas -/

theorem drop_seg {s a r : List Nat} {p : Nat} (h : s.drop p = a ++ r) :
    s.drop (p + a.length) = r := by
  have h2 : (s.drop p).drop a.length = r := by rw [h, List.drop_left]
  rw [← h2, List.drop_drop, Nat.add_comm]

theorem readBytes_of_drop {s a r : List Nat} {p k : Nat} (h : s.drop p = a ++ r)
    (hk : a.length = k) : readBytes s p k = some a := by
  subst hk
  unfold readBytes takeExact
  rw [h, List.take_left]
  simp

theorem decodeLE_encodeU32 {w : Nat} (hw : w < u32Bound) : decodeLE (encodeU32 w) = w := by
  unfold u32Bound at hw
  simp only [encodeU32, decodeLE]
  omega

theorem decodeLE_encodeU64 {w : Nat} (hw : w < u64Bound) : decodeLE (encodeU64 w) = w := by
  unfold u64Bound at hw
  simp only [encodeU64, decodeLE]
  omega

theorem length_encodeU32 (w : Nat) : (encodeU32 w).length = 4 := rfl

theorem length_encodeU64 (w : Nat) : (encodeU64 w).length = 8 := rfl

theorem readU32_of_drop {s r : List Nat} {p w : Nat} (h : s.drop p = encodeU32 w ++ r)
    (hw : w < u32Bound) : readU32 s p = some (w, p + 4) ∧ s.drop (p + 4) = r := by
  refine ⟨?_, ?_⟩
  · unfold readU32
    rw [readBytes_of_drop h (length_encodeU32 w)]
    simp [decodeLE_encodeU32 hw]
  · have h' := drop_seg h
    rwa [length_encodeU32] at h'

theorem readU64_of_drop {s r : List Nat} {p w : Nat} (h : s.drop p = encodeU64 w ++ r) :
    readU64 s p = some (decodeLE (encodeU64 w), p + 8) ∧ s.drop (p + 8) = r := by
  refine ⟨?_, ?_⟩
  · unfold readU64
    rw [readBytes_of_drop h (length_encodeU64 w)]
    rfl
  · have h' := drop_seg h
    rwa [length_encodeU64] at h'

theorem encodeF32s_cons (w : Nat) (ws : List Nat) :
    encodeF32s (w :: ws) = encodeU32 w ++ encodeF32s ws := by
  simp [encodeF32s]

theorem encodeF32s_append (xs ys : List Nat) :
    encodeF32s (xs ++ ys) = encodeF32s xs ++ encodeF32s ys := by
  simp [encodeF32s]

theorem length_encodeF32s (ws : List Nat) : (encodeF32s ws).length = 4 * ws.length := by
  induction ws with
  | nil => rfl
  | cons w ws ih => simp [encodeF32s_cons, ih, length_encodeU32]; omega

theorem readF32s_of_drop {s : List Nat} {p : Nat} (ws : List Nat) {r : List Nat}
    (h : s.drop p = encodeF32s ws ++ r) (hw : ∀ x ∈ ws, x < u32Bound) :
    readF32s s p ws.length = some (ws, p + 4 * ws.length) ∧
      s.drop (p + 4 * ws.length) = r := by
  induction ws generalizing p with
  | nil =>
    simp only [encodeF32s, List.flatMap_nil, List.nil_append] at h
    simpa [readF32s] using h
  | cons w ws ih =>
    rw [encodeF32s_cons, List.append_assoc] at h
    have h32 := readU32_of_drop h (hw w (by simp))
    have ihh := ih h32.2 (fun x hx => hw x (by simp [hx]))
    refine ⟨?_, ?_⟩
    · show readF32s s p (ws.length + 1) = _
      unfold readF32s
      have hb : readBytes s p 4 = some (encodeU32 w) := readBytes_of_drop h (length_encodeU32 w)
      rw [hb]
      simp [ihh.1, decodeLE_encodeU32 (hw w (by simp)), Prod.ext_iff]
      omega
    · have := ihh.2
      have he : p + 4 + 4 * ws.length = p + 4 * (ws.length + 1) := by omega
      rwa [he] at this

theorem readRaw_of_drop {s a r : List Nat} {p k : Nat} (h : s.drop p = a ++ r)
    (hk : a.length = k) : readRaw s p k = some (a, p + k) ∧ s.drop (p + k) = r := by
  refine ⟨?_, ?_⟩
  · unfold readRaw
    rw [readBytes_of_drop h hk]
    rfl
  · have h' := drop_seg h
    rwa [hk] at h'

theorem ensure_chunk_type_of_drop {s r : List Nat} {p w : Nat}
    (h : s.drop p = encodeU32 w ++ r) (hw : w < u32Bound) :
    ensure_chunk_type s p w = Except.ok (p + 4) := by
  unfold ensure_chunk_type
  rw [(readU32_of_drop h hw).1]
  simp

theorem ensure_data_type_of_drop {s r : List Nat} {p w : Nat}
    (h : s.drop p = encodeU32 w ++ r) (hw : w < u32Bound) :
    ensure_data_type s p w = Except.ok (p + 4) := by
  unfold ensure_data_type
  rw [(readU32_of_drop h hw).1]
  simp

theorem padding4_congr {a b : Nat} (h : a % 4 = b % 4) : padding4 a = padding4 b := by
  unfold padding4
  rw [h]

theorem add_padding4_mod (pos : Nat) : (pos + padding4 pos) % 4 = 0 := by
  unfold padding4
  omega

theorem read_projection_of_drop {s r : List Nat} {p d : Nat} (proj : Option (Array2 Nat))
    (hm : ∀ m ∈ proj, m.rows = d ∧ m.cols = d ∧ m.wf ∧ ∀ x ∈ m.data, x < u32Bound)
    (h : s.drop p = projection_bytes proj ++ r) :
    ∃ p', read_projection s p ((if proj.isSome then 1 else 0) != 0) d
        = Except.ok (proj, p') ∧ s.drop p' = r := by
  cases proj with
  | none =>
    refine ⟨p, ?_, by simpa using h⟩
    simp [read_projection]
  | some m =>
    obtain ⟨hr, hc, hwf, hb⟩ := hm m rfl
    have hmk : (⟨d, d, m.data⟩ : Array2 Nat) = m := by
      obtain ⟨mr, mc, md⟩ := m
      simp only at hr hc
      rw [hr, hc]
    have hwf' : m.data.length = d * d := by
      have h0 : m.data.length = m.rows * m.cols := hwf
      rw [h0, hr, hc]
    have hf := readF32s_of_drop m.data (by simpa using h) hb
    refine ⟨p + 4 * m.data.length, ?_, hf.2⟩
    show read_projection s p true d = _
    unfold read_projection
    rw [if_pos rfl, ← hwf', hf.1]
    simp [from_shape_vec, hwf', hmk]

theorem read_norms_of_drop {s r : List Nat} {p n : Nat} (norms : Option (List Nat))
    (hm : ∀ ns ∈ norms, ns.length = n ∧ ∀ x ∈ ns, x < u32Bound)
    (h : s.drop p = norms_bytes norms ++ r) :
    ∃ p', read_norms s p ((if norms.isSome then 1 else 0) != 0) n
        = Except.ok (norms, p') ∧ s.drop p' = r := by
  cases norms with
  | none =>
    refine ⟨p, ?_, by simpa using h⟩
    simp [read_norms]
  | some ns =>
    obtain ⟨hlen, hb⟩ := hm ns rfl
    have hf := readF32s_of_drop ns (by simpa using h) hb
    refine ⟨p + 4 * ns.length, ?_, hf.2⟩
    show read_norms s p true n = _
    unfold read_norms
    rw [if_pos rfl, ← hlen, hf.1]

theorem read_subquantizers_of_drop {s : List Nat} {p M k d sc : Nat}
    (l : List (Array2 Nat)) {r : List Nat}
    (hM : M ≠ 0) (hsc : d / M = sc)
    (hl : ∀ sq ∈ l, sq.rows = k ∧ sq.cols = sc ∧ sq.wf ∧ ∀ x ∈ sq.data, x < u32Bound)
    (h : s.drop p = encodeF32s ((l.map Array2.data).flatten) ++ r) :
    ∃ p', read_subquantizers s p l.length M k d = Except.ok (l, p') ∧ s.drop p' = r := by
  induction l generalizing p with
  | nil =>
    refine ⟨p, rfl, ?_⟩
    simpa [encodeF32s] using h
  | cons sq rest ih =>
    obtain ⟨hr, hc, hwf, hb⟩ := hl sq (by simp)
    have hmk : (⟨k, sc, sq.data⟩ : Array2 Nat) = sq := by
      obtain ⟨sr, scc, sd⟩ := sq
      simp only at hr hc
      rw [hr, hc]
    have hwf' : sq.data.length = k * sc := by
      have h0 : sq.data.length = sq.rows * sq.cols := hwf
      rw [h0, hr, hc]
    rw [List.map_cons, List.flatten_cons, encodeF32s_append, List.append_assoc] at h
    have hf := readF32s_of_drop sq.data h hb
    have ihh := ih (fun x hx => hl x (by simp [hx])) hf.2
    obtain ⟨p'', hrec, hdrop⟩ := ihh
    refine ⟨p'', ?_, hdrop⟩
    show read_subquantizers s p (rest.length + 1) M k d = _
    unfold read_subquantizers
    have hdiv : rustDiv d M = Except.ok sc := by simp [rustDiv, hM, hsc]
    have hf1 : readF32s s p (k * sc) = some (sq.data, p + 4 * sq.data.length) := by
      rw [← hwf']
      exact hf.1
    have hshape : from_shape_vec k sc sq.data = Except.ok sq := by
      simp [from_shape_vec, hwf', hmk]
    simp [hdiv, hf1, hshape, hrec]

theorem flag_lt (b : Bool) : (if b then (1 : Nat) else 0) < u32Bound := by
  cases b <;> decide

theorem validQA_spec {a : QuantizedArray Nat} (hv : ValidQAb a = true) :
    0 < a.quantizer.subquantizers.length ∧
    (∀ sq ∈ a.quantizer.subquantizers,
      sq.rows = a.quantizer.n_quantizer_centroids ∧
      sq.cols = (a.quantizer.subquantizers.headD (Array2.empty Nat)).cols ∧
      sq.wf ∧ ∀ x ∈ sq.data, x < u32Bound) ∧
    (∀ m ∈ a.quantizer.projection,
      m.rows = a.quantizer.reconstructed_len ∧ m.cols = a.quantizer.reconstructed_len ∧
      m.wf ∧ ∀ x ∈ m.data, x < u32Bound) ∧
    a.quantized.cols = a.quantizer.quantized_len ∧
    a.quantized.wf ∧
    (∀ x ∈ a.quantized.data, x < u8Bound) ∧
    (∀ ns ∈ a.norms, ns.length = a.quantized.rows ∧ ∀ x ∈ ns, x < u32Bound) ∧
    a.quantizer.n_quantizer_centroids < u32Bound ∧
    a.quantizer.reconstructed_len < u32Bound ∧
    a.quantizer.quantized_len < u32Bound ∧
    a.quantized.rows < u64Bound := by
  unfold ValidQAb at hv
  simp only [Bool.and_eq_true, decide_eq_true_eq, List.all_eq_true] at hv
  obtain ⟨⟨⟨⟨⟨⟨⟨⟨⟨⟨t1, t2⟩, t3⟩, t4⟩, t5⟩, t6⟩, t7⟩, t8⟩, t9⟩, t10⟩, t11⟩ := hv
  refine ⟨t1, ?_, ?_, t4, t5, ?_, ?_, t8, t9, t10, t11⟩
  · intro sq hsq
    have := t2 sq hsq
    simp only [Bool.and_eq_true, decide_eq_true_eq, List.all_eq_true] at this
    exact ⟨this.1.1.1, this.1.1.2, this.1.2, fun x hx => this.2 x hx⟩
  · intro m hmem
    cases hp : a.quantizer.projection with
    | none => rw [hp] at hmem; cases hmem
    | some m0 =>
      rw [hp] at hmem t3
      cases hmem
      simp only [Bool.and_eq_true, decide_eq_true_eq, List.all_eq_true] at t3
      exact ⟨t3.1.1.1, t3.1.1.2, t3.1.2, fun x hx => t3.2 x hx⟩
  · intro x hx
    exact t6 x hx
  · intro ns hmem
    cases hn : a.norms with
    | none => rw [hn] at hmem; cases hmem
    | some ns0 =>
      rw [hn] at hmem t7
      cases hmem
      simp only [Bool.and_eq_true, decide_eq_true_eq, List.all_eq_true] at t7
      exact ⟨t7.1, fun x hx => t7.2 x hx⟩

theorem write_read_roundtrip (a : QuantizedArray Nat) (pre : List Nat) (pos : Nat)
    (hv : ValidQAb a = true) (hpos : pre.length = pos) :
    ∃ p', read_chunk (pre ++ write_chunk a pos) pos = Except.ok (a, p') := by
  obtain ⟨hMpos, hsubq, hproj, hcols, hwfq, hbytes, hnorms, hk32, hd32, hM32, hn64⟩ :=
    validQA_spec hv
  set s := pre ++ write_chunk a pos with hs
  have h0 : s.drop pos = write_chunk a pos := by
    rw [hs, ← hpos, List.drop_left]
  rw [write_chunk] at h0
  simp only [List.append_assoc, PQ.quantized_len] at h0
  simp only [PQ.quantized_len] at hcols hM32
  have e1 := ensure_chunk_type_of_drop h0 (by decide)
  have d1 := drop_seg h0
  rw [length_encodeU32] at d1
  have hu2 := readU64_of_drop d1
  have e2 := hu2.1
  have d2 := hu2.2
  have hu3 := readU32_of_drop d2 (flag_lt _)
  have e3 := hu3.1
  have d3 := hu3.2
  have hu4 := readU32_of_drop d3 (flag_lt _)
  have e4 := hu4.1
  have d4 := hu4.2
  have hu5 := readU32_of_drop d4 hM32
  have e5 := hu5.1
  have d5 := hu5.2
  have hu6 := readU32_of_drop d5 hd32
  have e6 := hu6.1
  have d6 := hu6.2
  have hu7 := readU32_of_drop d6 hk32
  have e7 := hu7.1
  have d7 := hu7.2
  have hu8 := readU64_of_drop d7
  have e8 := hu8.1
  rw [decodeLE_encodeU64 hn64] at e8
  have d8 := hu8.2
  have e9 := ensure_data_type_of_drop d8 (by decide)
  have d9 := drop_seg d8
  rw [length_encodeU32] at d9
  have e10 := ensure_data_type_of_drop d9 (by decide)
  have d10 := drop_seg d9
  rw [length_encodeU32] at d10
  have hpp : padding4 (pos + 4) = padding4 (pos + 4 + 8 + 4 + 4 + 4 + 4 + 4 + 8 + 4 + 4) :=
    padding4_congr (by omega)
  have dPad := drop_seg d10
  rw [List.length_replicate, hpp] at dPad
  obtain ⟨p12, eProj, dProj⟩ := read_projection_of_drop a.quantizer.projection hproj dPad
  have hM0 : a.quantizer.subquantizers.length ≠ 0 := Nat.pos_iff_ne_zero.mp hMpos
  have hsc : a.quantizer.reconstructed_len / a.quantizer.subquantizers.length
      = (a.quantizer.subquantizers.headD (Array2.empty Nat)).cols := by
    unfold PQ.reconstructed_len
    exact Nat.mul_div_cancel_left _ hMpos
  obtain ⟨p13, eSub, dSub⟩ :=
    read_subquantizers_of_drop a.quantizer.subquantizers hM0 hsc hsubq dProj
  obtain ⟨p14, eNorms, dNorms⟩ := read_norms_of_drop a.norms hnorms dSub
  have hclen : a.quantized.data.length
      = a.quantized.rows * a.quantizer.subquantizers.length := by
    have h0' : a.quantized.data.length = a.quantized.rows * a.quantized.cols := hwfq
    rw [h0', hcols]
  have dN' : s.drop p14 = a.quantized.data ++ [] := by
    rw [List.append_nil]
    exact dNorms
  have hraw := readRaw_of_drop dN' hclen
  have eRaw := hraw.1
  have eShape : from_shape_vec a.quantized.rows a.quantizer.subquantizers.length
      a.quantized.data = Except.ok a.quantized := by
    have hmk : (⟨a.quantized.rows, a.quantizer.subquantizers.length, a.quantized.data⟩ :
        Array2 Nat) = a.quantized := by
      rw [← hcols]
    simp [from_shape_vec, hclen, hmk]
  have ePQ : PQ.new a.quantizer.projection a.quantizer.subquantizers = a.quantizer := rfl
  refine ⟨p14 + a.quantized.rows * a.quantizer.subquantizers.length, ?_⟩
  simp only [read_chunk, read_body, e1, e2, e3, e4, e5, e6, e7, e8, e9, e10, eProj, eSub,
    eNorms, eRaw, eShape, ePQ]

theorem flatten_data_length {l : List (Array2 Nat)} {k c : Nat}
    (h : ∀ sq ∈ l, sq.data.length = k * c) :
    ((l.map Array2.data).flatten).length = l.length * (k * c) := by
  induction l with
  | nil => simp
  | cons sq rest ih =>
    simp only [List.map_cons, List.flatten_cons, List.length_append, List.length_cons]
    rw [h sq (by simp), ih (fun x hx => h x (by simp [hx]))]
    ring

/-- A concrete quantized array used by witnesses: a 2-by-2 projection,
two sub-codebooks of shape (2, 1), a 2-by-2 code matrix and norms. -/
def wArr : QuantizedArray Nat :=
  ⟨⟨some ⟨2, 2, [9, 8, 7, 6]⟩, [⟨2, 1, [11, 12]⟩, ⟨2, 1, [13, 14]⟩]⟩, ⟨2, 2, [0, 1, 1, 0]⟩,
    some [5, 6]⟩

/-- Claim C1: for every QuantizedArray whose quantizer satisfies the Quantizer
invariants (M sub-codebooks of common shape (k, d/M) with M dividing d,
optional d-by-d projection) and whose code matrix has M columns, writing
it with write_chunk at any stream position and reading the written bytes
back with read_chunk from the start of the chunk yields a QuantizedArray
whose projection, codebooks and code matrix are bit-for-bit equal to the
original's. -/
theorem claim_C1_write_read_roundtrip (a : QuantizedArray Nat) (pre : List Nat) (pos : Nat)
    (hv : ValidQAb a = true) (hpos : pre.length = pos) :
    ∃ res : QuantizedArray Nat × Nat,
      read_chunk (pre ++ write_chunk a pos) pos = Except.ok res ∧
      res.1.quantizer.projection = a.quantizer.projection ∧
      res.1.quantizer.subquantizers = a.quantizer.subquantizers ∧
      res.1.quantized = a.quantized := by
  obtain ⟨p', h⟩ := write_read_roundtrip a pre pos hv hpos
  exact ⟨(a, p'), h, rfl, rfl, rfl⟩

/-- Witness for C1: the round trip evaluated at a concrete valid array. -/
theorem claim_C1_witness :
    ∃ res : QuantizedArray Nat × Nat,
      read_chunk ([] ++ write_chunk wArr 0) 0 = Except.ok res ∧
      res.1.quantizer.projection = wArr.quantizer.projection ∧
      res.1.quantizer.subquantizers = wArr.quantizer.subquantizers ∧
      res.1.quantized = wArr.quantized :=
  claim_C1_write_read_roundtrip wArr [] 0 (by decide) rfl

/-- Claim C2: the u64 payload length that write_chunk computes analytically and
writes in the header (bytes 4 to 12 of the chunk) equals exactly the
number of bytes written after that length field, for norms present or
absent (both cases are instances of the same statement, which is
unconditional in the norms field). -/
theorem claim_C2_declared_size_exact (a : QuantizedArray Nat) (pos : Nat)
    (hv : ValidQAb a = true) :
    (write_chunk a pos).length = 12 + chunk_size a pos ∧
    ((write_chunk a pos).drop 4).take 8 = encodeU64 (chunk_size a pos) := by
  obtain ⟨hMpos, hsubq, hproj, hcols, hwfq, hbytes, hnorms, hk32, hd32, hM32, hn64⟩ :=
    validQA_spec hv
  simp only [PQ.quantized_len] at hcols
  have hsc : a.quantizer.reconstructed_len / a.quantizer.subquantizers.length
      = (a.quantizer.subquantizers.headD (Array2.empty Nat)).cols := by
    unfold PQ.reconstructed_len
    exact Nat.mul_div_cancel_left _ hMpos
  constructor
  · have hdata : ∀ sq ∈ a.quantizer.subquantizers,
        sq.data.length = a.quantizer.n_quantizer_centroids
          * (a.quantizer.subquantizers.headD (Array2.empty Nat)).cols := by
      intro sq hsq
      obtain ⟨hr, hc, hwf, _⟩ := hsubq sq hsq
      have h0 : sq.data.length = sq.rows * sq.cols := hwf
      rw [h0, hr, hc]
    have hsub := flatten_data_length hdata
    have hplen : (projection_bytes a.quantizer.projection).length
        = (if a.quantizer.projection.isSome then 1 else 0)
          * a.quantizer.reconstructed_len * a.quantizer.reconstructed_len * 4 := by
      cases hp : a.quantizer.projection with
      | none => simp [projection_bytes]
      | some m =>
        obtain ⟨hr, hc, hwf, _⟩ := hproj m (by rw [hp]; rfl)
        have h0 : m.data.length = m.rows * m.cols := hwf
        simp only [projection_bytes, length_encodeF32s, h0, hr, hc, Option.isSome_some,
          if_true]
        ring
    have hnlen : (norms_bytes a.norms).length
        = (if a.norms.isSome then 1 else 0) * a.quantized.rows * 4 := by
      cases hn : a.norms with
      | none => simp [norms_bytes]
      | some ns =>
        obtain ⟨hlen, _⟩ := hnorms ns (by rw [hn]; rfl)
        simp only [norms_bytes, length_encodeF32s, hlen, Option.isSome_some, if_true]
        ring
    have hqlen : a.quantized.data.length
        = a.quantized.rows * a.quantizer.subquantizers.length := by
      have h0 : a.quantized.data.length = a.quantized.rows * a.quantized.cols := hwfq
      rw [h0, hcols]
    rw [write_chunk, chunk_size]
    simp only [List.length_append, List.length_replicate, length_encodeU32, length_encodeU64,
      length_encodeF32s, hplen, hnlen, hsub, hqlen, PQ.quantized_len, hsc]
    ring
  · rw [write_chunk]
    simp only [List.append_assoc]
    rw [List.drop_left' (length_encodeU32 quantizedArrayId)]
    rw [List.take_left' (length_encodeU64 (chunk_size a pos))]

/-- Witness for C2 at the concrete valid array (norms present); the
bound is also checked at the norms-absent variant through the same
theorem in claim form, the statement being unconditional in that flag. -/
theorem claim_C2_witness :
    (write_chunk wArr 3).length = 12 + chunk_size wArr 3 ∧
    ((write_chunk wArr 3).drop 4).take 8 = encodeU64 (chunk_size wArr 3) :=
  claim_C2_declared_size_exact wArr 3 (by decide)

/-- Claim C10: the padding count write_chunk computes from the position just
after the type tag (pos + 4) equals the padding count read_chunk
computes from the position just after the two element-type tags
(pos + 48), the 44 intervening header bytes preserving the position
modulo 4; the f32 data that follows therefore starts at a 4-byte-aligned
absolute offset, and the zero bytes the writer emits are exactly the
bytes the reader skips. -/
theorem claim_C10_padding_symmetry (pos : Nat) (a : QuantizedArray Nat) :
    padding4 (pos + 4) = padding4 (pos + 48) ∧
    (pos + 48 + padding4 (pos + 48)) % 4 = 0 ∧
    ((write_chunk a pos).drop 48).take (padding4 (pos + 48))
      = List.replicate (padding4 (pos + 48)) 0 := by
  have hpp : padding4 (pos + 4) = padding4 (pos + 48) := padding4_congr (by omega)
  refine ⟨hpp, add_padding4_mod (pos + 48), ?_⟩
  have hsplit : write_chunk a pos
      = (encodeU32 quantizedArrayId ++ encodeU64 (chunk_size a pos)
          ++ encodeU32 (if a.quantizer.projection.isSome then 1 else 0)
          ++ encodeU32 (if a.norms.isSome then 1 else 0)
          ++ encodeU32 a.quantizer.quantized_len
          ++ encodeU32 a.quantizer.reconstructed_len
          ++ encodeU32 a.quantizer.n_quantizer_centroids
          ++ encodeU64 a.quantized.rows
          ++ encodeU32 u8TypeId ++ encodeU32 f32TypeId)
        ++ (List.replicate (padding4 (pos + 4)) 0
          ++ (projection_bytes a.quantizer.projection
            ++ (encodeF32s ((a.quantizer.subquantizers.map Array2.data).flatten)
              ++ (norms_bytes a.norms ++ a.quantized.data)))) := by
    rw [write_chunk]
    simp [List.append_assoc]
  rw [hsplit, List.drop_left' (by simp [length_encodeU32, length_encodeU64]), ← hpp,
    List.take_left' (List.length_replicate _ _)]

/-! ### Inversion lemmas for successful decodes -/

/-- The u32 header field at absolute position p of the stream, as
read_chunk reads it. -/
def header_u32 (s : List Nat) (p : Nat) : Option Nat :=
  (readU32 s p).map Prod.fst

/-- The u64 header field at absolute position p of the stream, as
read_chunk reads it. -/
def header_u64 (s : List Nat) (p : Nat) : Option Nat :=
  (readU64 s p).map Prod.fst

theorem readU32_snd {s : List Nat} {p v q : Nat} (h : readU32 s p = some (v, q)) :
    q = p + 4 := by
  unfold readU32 at h
  rcases hb : readBytes s p 4 with _ | b <;> rw [hb] at h
  · exact Option.noConfusion h
  · simp only [Option.map_some', Option.some.injEq, Prod.mk.injEq] at h
    exact h.2.symm

theorem readU64_snd {s : List Nat} {p v q : Nat} (h : readU64 s p = some (v, q)) :
    q = p + 8 := by
  unfold readU64 at h
  rcases hb : readBytes s p 8 with _ | b <;> rw [hb] at h
  · exact Option.noConfusion h
  · simp only [Option.map_some', Option.some.injEq, Prod.mk.injEq] at h
    exact h.2.symm

theorem ensure_chunk_type_inv {s : List Nat} {p e p' : Nat}
    (h : ensure_chunk_type s p e = Except.ok p') : p' = p + 4 := by
  unfold ensure_chunk_type at h
  rcases hr : readU32 s p with _ | ⟨v, q⟩ <;> simp only [hr] at h
  · exact Except.noConfusion h
  · split at h
    · have hq := readU32_snd hr
      simp only [Except.ok.injEq] at h
      rw [← h, hq]
    · exact Except.noConfusion h

theorem ensure_data_type_inv {s : List Nat} {p e p' : Nat}
    (h : ensure_data_type s p e = Except.ok p') : p' = p + 4 := by
  unfold ensure_data_type at h
  rcases hr : readU32 s p with _ | ⟨v, q⟩ <;> simp only [hr] at h
  · exact Except.noConfusion h
  · split at h
    · have hq := readU32_snd hr
      simp only [Except.ok.injEq] at h
      rw [← h, hq]
    · exact Except.noConfusion h

theorem from_shape_vec_inv {α : Type u} {r c : Nat} {data : List α} {m : Array2 α}
    (h : from_shape_vec r c data = Except.ok m) :
    m.rows = r ∧ m.cols = c ∧ m.data = data ∧ data.length = r * c := by
  unfold from_shape_vec at h
  split at h
  · simp only [Except.ok.injEq] at h
    subst h
    exact ⟨rfl, rfl, rfl, by assumption⟩
  · exact Except.noConfusion h

theorem readF32s_inv {s : List Nat} : ∀ {c p : Nat} {v : List Nat} {q : Nat},
    readF32s s p c = some (v, q) → v.length = c := by
  intro c
  induction c with
  | zero =>
    intro p v q h
    unfold readF32s at h
    simp only [Option.some.injEq, Prod.mk.injEq] at h
    rw [← h.1]
    rfl
  | succ c ih =>
    intro p v q h
    unfold readF32s at h
    rcases hb : readBytes s p 4 with _ | b <;> simp only [hb, Option.bind] at h
    · exact Option.noConfusion h
    · rcases hr : readF32s s (p + 4) c with _ | ⟨v', q'⟩ <;> simp only [hr] at h
      · exact Option.noConfusion h
      · simp only [Option.map_some', Option.some.injEq, Prod.mk.injEq] at h
        rw [← h.1, List.length_cons, ih hr]

theorem readRaw_inv {s : List Nat} {p k : Nat} {b : List Nat} {q : Nat}
    (h : readRaw s p k = some (b, q)) : b.length = k := by
  unfold readRaw readBytes takeExact at h
  split at h
  · simp only [Option.map_some', Option.some.injEq, Prod.mk.injEq] at h
    rw [← h.1]
    assumption
  · exact Option.noConfusion h

theorem read_norms_inv {s : List Nat} {p : Nat} {flag : Bool} {n : Nat}
    {o : Option (List Nat)} {p' : Nat}
    (h : read_norms s p flag n = Except.ok (o, p')) :
    ∀ ns ∈ o, ns.length = n := by
  unfold read_norms at h
  split at h
  · rcases hf : readF32s s p n with _ | ⟨v, q⟩ <;> rw [hf] at h
    · exact Except.noConfusion h
    · simp only [Except.ok.injEq, Prod.mk.injEq] at h
      intro ns hns
      rw [← h.1] at hns
      cases hns
      exact readF32s_inv hf
  · simp only [Except.ok.injEq, Prod.mk.injEq] at h
    intro ns hns
    rw [← h.1] at hns
    cases hns

theorem read_subquantizers_inv {s : List Nat} {M k d : Nat} :
    ∀ {count p : Nat} {l : List (Array2 Nat)} {p' : Nat},
    read_subquantizers s p count M k d = Except.ok (l, p') →
    l.length = count ∧ ∀ sq ∈ l, sq.rows = k ∧ sq.cols = d / M := by
  intro count
  induction count with
  | zero =>
    intro p l p' h
    unfold read_subquantizers at h
    simp only [Except.ok.injEq, Prod.mk.injEq] at h
    rw [← h.1]
    exact ⟨rfl, by intro sq hsq; cases hsq⟩
  | succ c ih =>
    intro p l p' h
    unfold read_subquantizers at h
    rcases hdiv : rustDiv d M with e | sub <;> simp only [hdiv] at h
    · exact Except.noConfusion h
    have hsub : sub = d / M := by
      unfold rustDiv at hdiv
      split at hdiv
      · exact Except.noConfusion hdiv
      · simp only [Except.ok.injEq] at hdiv
        rw [hdiv]
    rcases hf : readF32s s p (k * sub) with _ | ⟨v, q⟩ <;> simp only [hf] at h
    · exact Except.noConfusion h
    rcases hfs : from_shape_vec k sub v with e | sq <;> simp only [hfs] at h
    · exact Except.noConfusion h
    rcases hrec : read_subquantizers s q c M k d with e | ⟨rest, q'⟩ <;> simp only [hrec] at h
    · exact Except.noConfusion h
    simp only [Except.ok.injEq, Prod.mk.injEq] at h
    obtain ⟨hsqinv1, hsqinv2, _, _⟩ := from_shape_vec_inv hfs
    obtain ⟨hlen, hall⟩ := ih hrec
    rw [← h.1]
    constructor
    · simp [hlen]
    · intro x hx
      rcases List.mem_cons.mp hx with hx1 | hx2
      · subst hx1
        exact ⟨hsqinv1, by rw [hsqinv2, hsub]⟩
      · exact hall x hx2

theorem read_chunk_ok_inv {s : List Nat} {pos : Nat} {a : QuantizedArray Nat} {pEnd : Nat}
    (h : read_chunk s pos = Except.ok (a, pEnd)) :
    ∃ M d n,
      header_u32 s (pos + 20) = some M ∧
      header_u32 s (pos + 24) = some d ∧
      header_u64 s (pos + 32) = some n ∧
      a.quantizer.subquantizers.length = M ∧
      (∀ sq ∈ a.quantizer.subquantizers, sq.cols = d / M) ∧
      a.quantized.rows = n ∧
      a.quantized.cols = M ∧
      (∀ ns ∈ a.norms, ns.length = n) := by
  unfold read_chunk at h
  rcases he : ensure_chunk_type s pos quantizedArrayId with e | p1 <;> simp only [he] at h
  · exact Except.noConfusion h
  have hp1 := ensure_chunk_type_inv he
  subst hp1
  rcases hl : readU64 s (pos + 4) with _ | ⟨len, p2⟩ <;> simp only [hl] at h
  · exact Except.noConfusion h
  have hp2 := readU64_snd hl
  subst hp2
  unfold read_body at h
  rcases h3 : readU32 s (pos + 4 + 8) with _ | ⟨projFlag, p3⟩ <;> simp only [h3] at h
  · exact Except.noConfusion h
  have hp3 := readU32_snd h3
  subst hp3
  rcases h4 : readU32 s (pos + 4 + 8 + 4) with _ | ⟨normsFlag, p4⟩ <;> simp only [h4] at h
  · exact Except.noConfusion h
  have hp4 := readU32_snd h4
  subst hp4
  rcases h5 : readU32 s (pos + 4 + 8 + 4 + 4) with _ | ⟨M, p5⟩ <;> simp only [h5] at h
  · exact Except.noConfusion h
  have hp5 := readU32_snd h5
  subst hp5
  rcases h6 : readU32 s (pos + 4 + 8 + 4 + 4 + 4) with _ | ⟨d, p6⟩ <;> simp only [h6] at h
  · exact Except.noConfusion h
  have hp6 := readU32_snd h6
  subst hp6
  rcases h7 : readU32 s (pos + 4 + 8 + 4 + 4 + 4 + 4) with _ | ⟨k, p7⟩ <;> simp only [h7] at h
  · exact Except.noConfusion h
  have hp7 := readU32_snd h7
  subst hp7
  rcases h8 : readU64 s (pos + 4 + 8 + 4 + 4 + 4 + 4 + 4) with _ | ⟨n, p8⟩ <;>
    simp only [h8] at h
  · exact Except.noConfusion h
  have hp8 := readU64_snd h8
  subst hp8
  rcases h9 : ensure_data_type s (pos + 4 + 8 + 4 + 4 + 4 + 4 + 4 + 8) u8TypeId with e | p9 <;>
    simp only [h9] at h
  · exact Except.noConfusion h
  have hp9 := ensure_data_type_inv h9
  subst hp9
  rcases h10 : ensure_data_type s (pos + 4 + 8 + 4 + 4 + 4 + 4 + 4 + 8 + 4) f32TypeId
      with e | p10 <;> simp only [h10] at h
  · exact Except.noConfusion h
  have hp10 := ensure_data_type_inv h10
  subst hp10
  rcases hpr : read_projection s
      (pos + 4 + 8 + 4 + 4 + 4 + 4 + 4 + 8 + 4 + 4
        + padding4 (pos + 4 + 8 + 4 + 4 + 4 + 4 + 4 + 8 + 4 + 4)) (projFlag != 0) d
      with e | ⟨proj, p12⟩ <;> simp only [hpr] at h
  · exact Except.noConfusion h
  rcases hsq : read_subquantizers s p12 M M k d with e | ⟨qs, p13⟩ <;> simp only [hsq] at h
  · exact Except.noConfusion h
  rcases hnm : read_norms s p13 (normsFlag != 0) n with e | ⟨normsV, p14⟩ <;>
    simp only [hnm] at h
  · exact Except.noConfusion h
  rcases hraw : readRaw s p14 (n * M) with _ | ⟨codesBytes, p15⟩ <;> simp only [hraw] at h
  · exact Except.noConfusion h
  rcases hshape : from_shape_vec n M codesBytes with e | qmat <;> simp only [hshape] at h
  · exact Except.noConfusion h
  simp only [Except.ok.injEq, Prod.mk.injEq] at h
  obtain ⟨ha, hpend⟩ := h
  subst ha
  obtain ⟨hql, hqall⟩ := read_subquantizers_inv hsq
  obtain ⟨hqr, hqc, _, _⟩ := from_shape_vec_inv hshape
  have hnormlen := read_norms_inv hnm
  refine ⟨M, d, n, ?_, ?_, ?_, hql, fun sq hs => (hqall sq hs).2, hqr, hqc, hnormlen⟩
  · unfold header_u32
    rw [show pos + 20 = pos + 4 + 8 + 4 + 4 from by omega, h5]
    rfl
  · unfold header_u32
    rw [show pos + 24 = pos + 4 + 8 + 4 + 4 + 4 from by omega, h6]
    rfl
  · unfold header_u64
    rw [show pos + 32 = pos + 4 + 8 + 4 + 4 + 4 + 4 + 4 from by omega, h8]
    rfl

/-- A 56-byte stream whose header declares M = 2 sub-quantizers and
reconstructed length d = 3 (not divisible by 2), followed by two
sub-codebooks of the truncated shape (1, 3 / 2) = (1, 1). -/
def c3stream : List Nat :=
  [4, 0, 0, 0, 44, 0, 0, 0, 0, 0, 0, 0, 0, 0, 0, 0, 0, 0, 0, 0, 2, 0, 0, 0, 3, 0, 0, 0,
   1, 0, 0, 0, 0, 0, 0, 0, 0, 0, 0, 0, 1, 0, 0, 0, 10, 0, 0, 0, 0, 0, 0, 0, 0, 0, 0, 0]

/-- Counterexample for C3: on a stream whose header has d = 3 not
divisible by M = 2, read_chunk does not fail with a shape error; it
succeeds, returning a QuantizedArray built from sub-codebooks truncated
to 3 / 2 = 1 columns, whose reconstructed length 2 differs from the
header's d = 3. -/
theorem claim_C3_counterexample :
    read_chunk c3stream 0
      = Except.ok (⟨⟨none, [⟨1, 1, [0]⟩, ⟨1, 1, [0]⟩]⟩, ⟨0, 2, []⟩, none⟩, 56) ∧
    header_u32 c3stream 20 = some 2 ∧
    header_u32 c3stream 24 = some 3 ∧
    ¬ (2 ∣ 3) ∧
    (⟨⟨none, [⟨1, 1, [0]⟩, ⟨1, 1, [0]⟩]⟩, ⟨0, 2, []⟩, none⟩
        : QuantizedArray Nat).quantizer.reconstructed_len = 2 := by
  refine ⟨by decide, by decide, by decide, by decide, by decide⟩

/-- Claim C3 amended: read_chunk performs no divisibility validation. Whenever
it succeeds, each decoded sub-codebook has the truncated column count
d / M (integer division on the header fields) and the resulting
quantizer's reconstructed length is M * (d / M), which differs from the
header's d exactly when M does not divide d; no shape error is raised on
that account. -/
theorem claim_C3_amended_truncation {s : List Nat} {pos : Nat} {a : QuantizedArray Nat}
    {pEnd M d : Nat} (h : read_chunk s pos = Except.ok (a, pEnd))
    (hM : header_u32 s (pos + 20) = some M) (hd : header_u32 s (pos + 24) = some d) :
    a.quantizer.reconstructed_len = M * (d / M) ∧
    ∀ sq ∈ a.quantizer.subquantizers, sq.cols = d / M := by
  obtain ⟨M', d', n', hM', hd', hn', hlen, hcols, _, _, _⟩ := read_chunk_ok_inv h
  have hMM : M' = M := Option.some.inj (hM'.symm.trans hM)
  have hdd : d' = d := Option.some.inj (hd'.symm.trans hd)
  subst hMM
  subst hdd
  refine ⟨?_, hcols⟩
  unfold PQ.reconstructed_len
  rcases hq : a.quantizer.subquantizers with _ | ⟨q, qs⟩
  · have hl2 : ([] : List (Array2 Nat)).length = M' := hq ▸ hlen
    have hM0 : M' = 0 := by simpa using hl2.symm
    rw [hM0]
    simp
  · have hc := hcols q (by rw [hq]; exact List.mem_cons_self q qs)
    have hl2 : (q :: qs).length = M' := hq ▸ hlen
    simp only [List.headD_cons]
    rw [hc, hl2]

/-- Witness for the amended C3 at the concrete truncating stream. -/
theorem claim_C3_witness :
    (⟨⟨none, [⟨1, 1, [0]⟩, ⟨1, 1, [0]⟩]⟩, ⟨0, 2, []⟩, none⟩
        : QuantizedArray Nat).quantizer.reconstructed_len = 2 * (3 / 2) ∧
    ∀ sq ∈ (⟨⟨none, [⟨1, 1, [0]⟩, ⟨1, 1, [0]⟩]⟩, ⟨0, 2, []⟩, none⟩
        : QuantizedArray Nat).quantizer.subquantizers, sq.cols = 3 / 2 :=
  @claim_C3_amended_truncation c3stream 0
    ⟨⟨none, [⟨1, 1, [0]⟩, ⟨1, 1, [0]⟩]⟩, ⟨0, 2, []⟩, none⟩ 56 2 3
    (by decide) (by decide) (by decide)

/-- Claim C6: every QuantizedArray produced by read_chunk decoding or by the
quantize_using operation satisfies the construction invariants: the code
matrix has n rows (the header's n, respectively the source row count),
the norms vector when present has length exactly n, and shape() is
(n, quantizer.reconstructed_len), the reconstructed length fixed at
construction; values of the embedding are immutable, so no operation
changes these afterwards. -/
theorem claim_C6_construction_invariants :
    (∀ (s : List Nat) (pos : Nat) (a : QuantizedArray Nat) (pEnd n : Nat),
      read_chunk s pos = Except.ok (a, pEnd) →
      header_u64 s (pos + 32) = some n →
      a.quantized.rows = n ∧ (∀ ns ∈ a.norms, ns.length = n) ∧
        a.shape = (n, a.quantizer.reconstructed_len)) ∧
    (∀ (α : Type) (i1 : Mul α) (i2 : Add α) (i3 : Zero α) (i4 : Div α)
      (train : Array2 α → PQ α) (qb : PQ α → Array2 α → Array2 Nat)
      (sqrtF : α → α) (src : Array2 α) (normalize : Bool),
      (∀ q m, (qb q m).rows = m.rows) →
      (@quantize_using α i1 i2 i3 i4 train qb sqrtF src normalize).quantized.rows = src.rows ∧
      (∀ ns ∈ (@quantize_using α i1 i2 i3 i4 train qb sqrtF src normalize).norms,
        ns.length = src.rows) ∧
      (@quantize_using α i1 i2 i3 i4 train qb sqrtF src normalize).shape
        = (src.rows, (@quantize_using α i1 i2 i3 i4 train qb sqrtF src normalize).quantizer.reconstructed_len)) := by
  constructor
  · intro s pos a pEnd n h hn
    obtain ⟨M', d', n', hM', hd', hn', hlen, hcols, hrows, hqcols, hnlen⟩ := read_chunk_ok_inv h
    have hnn : n' = n := Option.some.inj (hn'.symm.trans hn)
    subst hnn
    exact ⟨hrows, hnlen, by rw [QuantizedArray.shape, hrows]⟩
  · intro α i1 i2 i3 i4 train qb sqrtF src normalize hqb
    cases normalize with
    | false =>
      refine ⟨hqb _ _, ?_, ?_⟩
      · intro ns hns
        simp only [quantize_using, if_neg Bool.false_ne_true] at hns
        cases hns
      · simp only [QuantizedArray.shape, quantize_using, if_neg Bool.false_ne_true]
        rw [hqb]
    | true =>
      have hrows : (@quantize_using α i1 i2 i3 i4 train qb sqrtF src true).quantized.rows
          = src.rows := by
        simp only [quantize_using]
        rw [hqb]
        simp
      refine ⟨hrows, ?_, ?_⟩
      · intro ns hns
        simp [quantize_using] at hns
        subst hns
        simp [Array2.rowsList]
      · simp only [QuantizedArray.shape]
        rw [hrows]

/-- A trivial injected trainer used by witnesses. -/
def train0 : Array2 Nat → PQ Nat := fun _ => ⟨none, [⟨1, 1, [7]⟩]⟩

/-- A trivial injected batch quantizer used by witnesses; it satisfies
the trainer contract of producing one code row per input row. -/
def qb0 : PQ Nat → Array2 Nat → Array2 Nat := fun _ m => ⟨m.rows, 1, List.replicate m.rows 0⟩

/-- A concrete 2-by-1 source matrix used by witnesses. -/
def src0 : Array2 Nat := ⟨2, 1, [3, 4]⟩

/-- Witness for C6: the construction invariants evaluated on the decode
of a concrete stream and on a concrete quantize run. -/
theorem claim_C6_witness :
    ((⟨⟨none, [⟨1, 1, [0]⟩, ⟨1, 1, [0]⟩]⟩, ⟨0, 2, []⟩, none⟩
        : QuantizedArray Nat).quantized.rows = 0 ∧
      (∀ ns ∈ (⟨⟨none, [⟨1, 1, [0]⟩, ⟨1, 1, [0]⟩]⟩, ⟨0, 2, []⟩, none⟩
        : QuantizedArray Nat).norms, ns.length = 0) ∧
      (⟨⟨none, [⟨1, 1, [0]⟩, ⟨1, 1, [0]⟩]⟩, ⟨0, 2, []⟩, none⟩
        : QuantizedArray Nat).shape = (0, (⟨⟨none, [⟨1, 1, [0]⟩, ⟨1, 1, [0]⟩]⟩, ⟨0, 2, []⟩,
          none⟩ : QuantizedArray Nat).quantizer.reconstructed_len)) ∧
    ((quantize_using train0 qb0 id src0 true).quantized.rows = src0.rows ∧
      (∀ ns ∈ (quantize_using train0 qb0 id src0 true).norms, ns.length = src0.rows) ∧
      (quantize_using train0 qb0 id src0 true).shape
        = (src0.rows, (quantize_using train0 qb0 id src0 true).quantizer.reconstructed_len)) :=
  ⟨claim_C6_construction_invariants.1 c3stream 0 _ 56 0 (by decide) (by decide),
   claim_C6_construction_invariants.2 Nat _ _ _ _ train0 qb0 id src0 true (fun _ _ => rfl)⟩

/-! ### No-abort lemmas for the decode path -/

theorem from_shape_vec_no_panic {α : Type u} {r c : Nat} {data : List α} :
    from_shape_vec r c data ≠ Except.error Err.panic := by
  unfold from_shape_vec
  split <;> simp

theorem ensure_chunk_type_no_panic {s : List Nat} {p e : Nat} :
    ensure_chunk_type s p e ≠ Except.error Err.panic := by
  unfold ensure_chunk_type
  split
  · simp
  · split <;> simp

theorem ensure_data_type_no_panic {s : List Nat} {p e : Nat} :
    ensure_data_type s p e ≠ Except.error Err.panic := by
  unfold ensure_data_type
  split
  · simp
  · split <;> simp

theorem read_projection_no_panic {s : List Nat} {p : Nat} {flag : Bool} {d : Nat} :
    read_projection s p flag d ≠ Except.error Err.panic := by
  intro h
  unfold read_projection at h
  split at h
  · rcases hf : readF32s s p (d * d) with _ | ⟨v, q⟩ <;> simp only [hf] at h
    · simp at h
    · rcases hfs : from_shape_vec d d v with e | m <;> simp only [hfs] at h
      · have he : e = Err.panic := by simpa using h
        subst he
        exact from_shape_vec_no_panic hfs
      · exact Except.noConfusion h
  · exact Except.noConfusion h

theorem read_norms_no_panic {s : List Nat} {p : Nat} {flag : Bool} {n : Nat} :
    read_norms s p flag n ≠ Except.error Err.panic := by
  intro h
  unfold read_norms at h
  split at h
  · rcases hf : readF32s s p n with _ | ⟨v, q⟩ <;> simp only [hf] at h
    · simp at h
    · exact Except.noConfusion h
  · exact Except.noConfusion h

theorem read_subquantizers_no_panic {s : List Nat} {M k d : Nat} :
    ∀ {count p : Nat}, (count ≠ 0 → M ≠ 0) →
    read_subquantizers s p count M k d ≠ Except.error Err.panic := by
  intro count
  induction count with
  | zero =>
    intro p _ h
    exact Except.noConfusion h
  | succ c ih =>
    intro p hM h
    have hM' : M ≠ 0 := hM (Nat.succ_ne_zero c)
    unfold read_subquantizers at h
    simp only [show rustDiv d M = Except.ok (d / M) from by simp [rustDiv, hM']] at h
    rcases hf : readF32s s p (k * (d / M)) with _ | ⟨v, q⟩ <;> simp only [hf] at h
    · simp at h
    rcases hfs : from_shape_vec k (d / M) v with e | sq <;> simp only [hfs] at h
    · have he : e = Err.panic := by simpa using h
      subst he
      exact from_shape_vec_no_panic hfs
    rcases hrec : read_subquantizers s q c M k d with e | pr <;> simp only [hrec] at h
    · have he : e = Err.panic := by simpa using h
      subst he
      exact ih (fun _ => hM') hrec
    · exact Except.noConfusion h

theorem read_body_no_panic (s : List Nat) (p : Nat) :
    read_body s p ≠ Except.error Err.panic := by
  intro h
  unfold read_body at h
  rcases h3 : readU32 s p with _ | ⟨projFlag, p3⟩ <;> simp only [h3] at h
  · simp at h
  rcases h4 : readU32 s p3 with _ | ⟨normsFlag, p4⟩ <;> simp only [h4] at h
  · simp at h
  rcases h5 : readU32 s p4 with _ | ⟨M, p5⟩ <;> simp only [h5] at h
  · simp at h
  rcases h6 : readU32 s p5 with _ | ⟨d, p6⟩ <;> simp only [h6] at h
  · simp at h
  rcases h7 : readU32 s p6 with _ | ⟨k, p7⟩ <;> simp only [h7] at h
  · simp at h
  rcases h8 : readU64 s p7 with _ | ⟨n, p8⟩ <;> simp only [h8] at h
  · simp at h
  rcases h9 : ensure_data_type s p8 u8TypeId with e | p9 <;> simp only [h9] at h
  · have he : e = Err.panic := by simpa using h
    subst he
    exact ensure_data_type_no_panic h9
  rcases h10 : ensure_data_type s p9 f32TypeId with e | p10 <;> simp only [h10] at h
  · have he : e = Err.panic := by simpa using h
    subst he
    exact ensure_data_type_no_panic h10
  rcases hpr : read_projection s (p10 + padding4 p10) (projFlag != 0) d
      with e | ⟨proj, p12⟩ <;> simp only [hpr] at h
  · have he : e = Err.panic := by simpa using h
    subst he
    exact read_projection_no_panic hpr
  rcases hsq : read_subquantizers s p12 M M k d with e | ⟨qs, p13⟩ <;> simp only [hsq] at h
  · have he : e = Err.panic := by simpa using h
    subst he
    exact read_subquantizers_no_panic (fun hM => hM) hsq
  rcases hnm : read_norms s p13 (normsFlag != 0) n with e | ⟨normsV, p14⟩ <;>
    simp only [hnm] at h
  · have he : e = Err.panic := by simpa using h
    subst he
    exact read_norms_no_panic hnm
  rcases hraw : readRaw s p14 (n * M) with _ | ⟨codesBytes, p15⟩ <;> simp only [hraw] at h
  · simp at h
  rcases hshape : from_shape_vec n M codesBytes with e | qmat <;> simp only [hshape] at h
  · have he : e = Err.panic := by simpa using h
    subst he
    exact from_shape_vec_no_panic hshape
  · exact Except.noConfusion h

theorem read_chunk_no_panic (s : List Nat) (pos : Nat) :
    read_chunk s pos ≠ Except.error Err.panic := by
  intro h
  unfold read_chunk at h
  rcases he : ensure_chunk_type s pos quantizedArrayId with e | p1 <;> simp only [he] at h
  · have he' : e = Err.panic := by simpa using h
    subst he'
    exact ensure_chunk_type_no_panic he
  rcases hl : readU64 s p1 with _ | ⟨len, p2⟩ <;> simp only [hl] at h
  · simp at h
  exact read_body_no_panic s p2 h

/-- Claim C5: read_chunk is total and recoverable on every input stream and
position: it returns a fully constructed QuantizedArray or one of the
three recoverable error values (an I/O error, the type-mismatch error,
or the shape error); it never reaches the model's panic value (the only
division, by the sub-quantizer count M, sits inside the loop body that
is executed zero times when M = 0). -/
theorem claim_C5_total_no_abort (s : List Nat) (pos : Nat) :
    (∃ a p', read_chunk s pos = Except.ok (a, p')) ∨
    (∃ ctx, read_chunk s pos = Except.error (Err.io ctx)) ∨
    read_chunk s pos = Except.error Err.typeMismatch ∨
    read_chunk s pos = Except.error Err.shape := by
  rcases hr : read_chunk s pos with e | ⟨a, p'⟩
  · rcases e with ctx | _ | _ | _
    · exact Or.inr (Or.inl ⟨ctx, rfl⟩)
    · exact Or.inr (Or.inr (Or.inl rfl))
    · exact Or.inr (Or.inr (Or.inr rfl))
    · exact absurd hr (read_chunk_no_panic s pos)
  · exact Or.inl ⟨a, p', rfl⟩

/-- Claim C8: for every stream whose leading u32 type tag at the chunk start
decodes to any value other than the reserved quantized-array identifier,
read_chunk fails with the type-mismatch error value (a returned error,
not a crash), whatever the rest of the stream contains. -/
theorem claim_C8_type_tag_rejection (s : List Nat) (pos t q : Nat)
    (ht : readU32 s pos = some (t, q)) (hne : t ≠ quantizedArrayId) :
    read_chunk s pos = Except.error Err.typeMismatch := by
  unfold read_chunk ensure_chunk_type
  simp only [ht]
  rw [if_neg hne]

/-- Witness for C8: a stream whose tag is 5 is rejected. -/
theorem claim_C8_witness :
    read_chunk [5, 0, 0, 0] 0 = Except.error Err.typeMismatch :=
  claim_C8_type_tag_rejection [5, 0, 0, 0] 0 5 4 (by decide) (by decide)

/-! ### Reconstruction (C4) -/

theorem Array2.row_length {α : Type u} {m : Array2 α} {i : Nat} (hwf : m.wf)
    (hi : i < m.rows) : (m.row i).length = m.cols := by
  unfold Array2.row
  have hl : m.data.length = m.rows * m.cols := hwf
  have h2 : i * m.cols + m.cols ≤ m.rows * m.cols := by
    have h3 := Nat.mul_le_mul_right m.cols (Nat.succ_le_of_lt hi)
    rw [Nat.succ_mul] at h3
    exact h3
  rw [List.length_take, List.length_drop, hl]
  omega

theorem zip_flatMap_eq_range {α : Type u} (l : List (Array2 α)) (cr : List Nat)
    (h : cr.length = l.length) :
    (l.zip cr).flatMap (fun sc => sc.1.row sc.2)
      = (List.range l.length).flatMap
          (fun m => (l.getD m (Array2.empty α)).row (cr.getD m 0)) := by
  induction l generalizing cr with
  | nil => simp
  | cons sq rest ih =>
    cases cr with
    | nil => simp at h
    | cons c cr' =>
      have h' : cr'.length = rest.length := by simpa using h
      simp only [List.zip_cons_cons, List.flatMap_cons, List.length_cons,
        List.range_succ_eq_map, List.flatMap_map, List.getD_cons_zero,
        List.getD_cons_succ]
      rw [ih cr' h']

theorem zip_row_flatMap_length {α : Type u} :
    ∀ (l : List (Array2 α)) (cr : List Nat) (sub : Nat),
    (∀ sq ∈ l, sq.cols = sub ∧ sq.wf) →
    (∀ pr ∈ l.zip cr, pr.2 < pr.1.rows) →
    cr.length = l.length →
    ((l.zip cr).flatMap (fun sc => sc.1.row sc.2)).length = l.length * sub := by
  intro l
  induction l with
  | nil =>
    intro cr sub _ _ _
    simp
  | cons sq rest ih =>
    intro cr sub hsq hcode hlen
    cases cr with
    | nil => simp at hlen
    | cons c cr' =>
      simp only [List.zip_cons_cons, List.flatMap_cons, List.length_append, List.length_cons]
      obtain ⟨hc, hwf⟩ := hsq sq (by simp)
      have hrowlen : (sq.row c).length = sq.cols :=
        Array2.row_length hwf (hcode (sq, c) (by simp))
      rw [hrowlen, hc,
        ih cr' sub (fun x hx => hsq x (by simp [hx]))
          (fun pr hpr => hcode pr (by simp [hpr])) (by simpa using hlen)]
      ring

/-- The reconstruction of row i as the spec words it: for each
sub-quantizer m in 0..M, look up codebook m's row codes[i][m]
(a d/M-length sub-vector), concatenate the M sub-vectors in order, and
scale the result by norms[i] when norms are present. -/
def spec_reconstruction {α : Type u} [Mul α] [Inhabited α]
    (a : QuantizedArray α) (i : Nat) : List α :=
  let cat := (List.range a.quantizer.subquantizers.length).flatMap
    (fun m => (a.quantizer.subquantizers.getD m (Array2.empty α)).row
      ((a.quantized.row i).getD m 0))
  match a.norms with
  | some ns => cat.map (fun x => x * ns.getD i default)
  | none => cat

/-- Claim C4: for every quantized array with a well-formed codes matrix of M
columns, sub-codebooks of a common width with in-range code entries, and
every row index i below n, embedding(i) is the concatenation, in
sub-quantizer order, of the codebook rows selected by the code row,
scaled elementwise by norms[i] exactly when norms are present; its
length is the quantizer's reconstructed length d. -/
theorem claim_C4_embedding_reconstruction {α : Type u} [Mul α] [Inhabited α]
    (a : QuantizedArray α) (i : Nat)
    (hwfc : a.quantized.wf)
    (hcols : a.quantized.cols = a.quantizer.subquantizers.length)
    (hi : i < a.quantized.rows)
    (hsq : ∀ sq ∈ a.quantizer.subquantizers,
      sq.cols = (a.quantizer.subquantizers.headD (Array2.empty α)).cols ∧ sq.wf)
    (hcode : ∀ pr ∈ a.quantizer.subquantizers.zip (a.quantized.row i), pr.2 < pr.1.rows) :
    a.embedding i = spec_reconstruction a i ∧
    (a.embedding i).length = a.quantizer.reconstructed_len := by
  have hrl : (a.quantized.row i).length = a.quantizer.subquantizers.length := by
    rw [Array2.row_length hwfc hi, hcols]
  have hcat : a.quantizer.reconstruct_vector (a.quantized.row i)
      = (List.range a.quantizer.subquantizers.length).flatMap
          (fun m => (a.quantizer.subquantizers.getD m (Array2.empty α)).row
            ((a.quantized.row i).getD m 0)) := by
    unfold PQ.reconstruct_vector
    exact zip_flatMap_eq_range _ _ hrl
  have hlen : (a.quantizer.reconstruct_vector (a.quantized.row i)).length
      = a.quantizer.reconstructed_len := by
    unfold PQ.reconstruct_vector PQ.reconstructed_len
    exact zip_row_flatMap_length _ _ _ hsq hcode hrl
  constructor
  · unfold QuantizedArray.embedding spec_reconstruction
    rcases a.norms with _ | ns <;> simp only [hcat]
  · unfold QuantizedArray.embedding
    rcases a.norms with _ | ns <;> simp only [List.length_map] <;> exact hlen

/-- Witness for C4 at a concrete array and row index. -/
theorem claim_C4_witness :
    wArr.embedding 0 = spec_reconstruction wArr 0 ∧
    (wArr.embedding 0).length = wArr.quantizer.reconstructed_len :=
  claim_C4_embedding_reconstruction wArr 0 (by decide) (by decide) (by decide)
    (by decide) (by decide)

/-! ### Quantize normalization semantics (C7) -/

theorem zip_map_self {β γ δ : Type u} (l : List β) (f : β → γ) (g : β → γ → δ) :
    (l.zip (l.map f)).map (fun p => g p.1 p.2) = l.map (fun r => g r (f r)) := by
  induction l with
  | nil => rfl
  | cons x xs ih => simp [ih]

/-- The row-normalized matrix as the spec words it: every row of the
source divided elementwise by that row's Euclidean norm. -/
def spec_normalized {α : Type u} [Mul α] [Add α] [Zero α] [Div α]
    (sqrtF : α → α) (src : Array2 α) : Array2 α :=
  ⟨src.rows, src.cols,
   (src.rowsList.map (fun r => r.map (fun x => x / sqrtF (dot r r)))).flatten⟩

/-- The per-row Euclidean norms as the spec words them: the square root
of each row's dot product with itself. -/
def spec_norms {α : Type u} [Mul α] [Add α] [Zero α] (sqrtF : α → α) (src : Array2 α) :
    List α :=
  src.rowsList.map (fun r => sqrtF (dot r r))

/-- Claim C7: quantize_using with normalize = true stores the vector of row
norms and feeds the row-normalized matrix to both the trainer and the
batch quantization; with normalize = false it stores no norms and feeds
the source matrix unchanged. -/
theorem claim_C7_normalization_semantics {α : Type u} [Mul α] [Add α] [Zero α] [Div α]
    (train : Array2 α → PQ α) (quantize_batch : PQ α → Array2 α → Array2 Nat)
    (sqrtF : α → α) (src : Array2 α) :
    quantize_using train quantize_batch sqrtF src true
      = ⟨train (spec_normalized sqrtF src),
         quantize_batch (train (spec_normalized sqrtF src)) (spec_normalized sqrtF src),
         some (spec_norms sqrtF src)⟩ ∧
    quantize_using train quantize_batch sqrtF src false
      = ⟨train src, quantize_batch (train src) src, none⟩ := by
  constructor
  · have hn : spec_normalized sqrtF src
        = ⟨src.rows, src.cols,
           ((src.rowsList.zip (src.rowsList.map (fun e => sqrtF (dot e e)))).map
             (fun en => en.1.map (fun x => x / en.2))).flatten⟩ := by
      unfold spec_normalized
      rw [zip_map_self src.rowsList (fun e => sqrtF (dot e e))
        (fun r n => r.map (fun x => x / n))]
    simp only [quantize_using, spec_norms, hn]
    simp
  · simp [quantize_using]

/-! ### Congruence machinery for C9 -/

theorem drop_eq_add {s1 s2 : List Nat} {p : Nat} (h : s1.drop p = s2.drop p) (k : Nat) :
    s1.drop (p + k) = s2.drop (p + k) := by
  have e : ∀ s : List Nat, s.drop (p + k) = (s.drop p).drop k := by
    intro s
    rw [List.drop_drop, Nat.add_comm]
  rw [e, e, h]

theorem drop_eq_mono {s1 s2 : List Nat} {m : Nat} (h : s1.drop m = s2.drop m) :
    ∀ q, m ≤ q → s1.drop q = s2.drop q := by
  intro q hq
  obtain ⟨t, rfl⟩ := Nat.exists_eq_add_of_le hq
  exact drop_eq_add h t

theorem readBytes_congr {s1 s2 : List Nat} {p : Nat} (h : s1.drop p = s2.drop p) (k : Nat) :
    readBytes s1 p k = readBytes s2 p k := by
  unfold readBytes
  rw [h]

theorem readU32_congr {s1 s2 : List Nat} {p : Nat} (h : s1.drop p = s2.drop p) :
    readU32 s1 p = readU32 s2 p := by
  unfold readU32
  rw [readBytes_congr h 4]

theorem readU64_congr {s1 s2 : List Nat} {p : Nat} (h : s1.drop p = s2.drop p) :
    readU64 s1 p = readU64 s2 p := by
  unfold readU64
  rw [readBytes_congr h 8]

theorem readF32s_congr {s1 s2 : List Nat} :
    ∀ (c : Nat) {p : Nat}, s1.drop p = s2.drop p → readF32s s1 p c = readF32s s2 p c := by
  intro c
  induction c with
  | zero =>
    intro p _
    rfl
  | succ c ih =>
    intro p h
    unfold readF32s
    rw [readBytes_congr h 4, ih (drop_eq_add h 4)]

theorem readRaw_congr {s1 s2 : List Nat} {p : Nat} (h : s1.drop p = s2.drop p) (k : Nat) :
    readRaw s1 p k = readRaw s2 p k := by
  unfold readRaw
  rw [readBytes_congr h k]

theorem ensure_data_type_congr {s1 s2 : List Nat} {p e : Nat} (h : s1.drop p = s2.drop p) :
    ensure_data_type s1 p e = ensure_data_type s2 p e := by
  unfold ensure_data_type
  rw [readU32_congr h]

theorem read_projection_congr {s1 s2 : List Nat} {p : Nat} {flag : Bool} {d : Nat}
    (h : s1.drop p = s2.drop p) :
    read_projection s1 p flag d = read_projection s2 p flag d := by
  unfold read_projection
  rw [readF32s_congr (d * d) h]

theorem read_norms_congr {s1 s2 : List Nat} {p : Nat} {flag : Bool} {n : Nat}
    (h : s1.drop p = s2.drop p) :
    read_norms s1 p flag n = read_norms s2 p flag n := by
  unfold read_norms
  rw [readF32s_congr n h]

theorem readF32s_snd {s : List Nat} : ∀ {c p : Nat} {v : List Nat} {q : Nat},
    readF32s s p c = some (v, q) → q = p + 4 * c := by
  intro c
  induction c with
  | zero =>
    intro p v q h
    unfold readF32s at h
    simp only [Option.some.injEq, Prod.mk.injEq] at h
    omega
  | succ c ih =>
    intro p v q h
    unfold readF32s at h
    rcases hb : readBytes s p 4 with _ | b <;> simp only [hb, Option.bind] at h
    · exact Option.noConfusion h
    · rcases hr : readF32s s (p + 4) c with _ | ⟨v', q'⟩ <;> simp only [hr] at h
      · exact Option.noConfusion h
      · simp only [Option.map_some', Option.some.injEq, Prod.mk.injEq] at h
        have := ih hr
        omega

theorem read_projection_le {s : List Nat} {p : Nat} {flag : Bool} {d : Nat}
    {proj : Option (Array2 Nat)} {p' : Nat}
    (h : read_projection s p flag d = Except.ok (proj, p')) : p ≤ p' := by
  unfold read_projection at h
  split at h
  · rcases hf : readF32s s p (d * d) with _ | ⟨v, q⟩ <;> simp only [hf] at h
    · exact Except.noConfusion h
    · rcases hfs : from_shape_vec d d v with e | m <;> simp only [hfs] at h
      · exact Except.noConfusion h
      · simp only [Except.ok.injEq, Prod.mk.injEq] at h
        have hq := readF32s_snd hf
        omega
  · simp only [Except.ok.injEq, Prod.mk.injEq] at h
    omega

theorem read_norms_le {s : List Nat} {p : Nat} {flag : Bool} {n : Nat}
    {o : Option (List Nat)} {p' : Nat}
    (h : read_norms s p flag n = Except.ok (o, p')) : p ≤ p' := by
  unfold read_norms at h
  split at h
  · rcases hf : readF32s s p n with _ | ⟨v, q⟩ <;> simp only [hf] at h
    · exact Except.noConfusion h
    · simp only [Except.ok.injEq, Prod.mk.injEq] at h
      have hq := readF32s_snd hf
      omega
  · simp only [Except.ok.injEq, Prod.mk.injEq] at h
    omega

theorem read_subquantizers_le {s : List Nat} {M k d : Nat} :
    ∀ {count p : Nat} {l : List (Array2 Nat)} {p' : Nat},
    read_subquantizers s p count M k d = Except.ok (l, p') → p ≤ p' := by
  intro count
  induction count with
  | zero =>
    intro p l p' h
    unfold read_subquantizers at h
    simp only [Except.ok.injEq, Prod.mk.injEq] at h
    omega
  | succ c ih =>
    intro p l p' h
    unfold read_subquantizers at h
    rcases hdiv : rustDiv d M with e | sub <;> simp only [hdiv] at h
    · exact Except.noConfusion h
    rcases hf : readF32s s p (k * sub) with _ | ⟨v, q⟩ <;> simp only [hf] at h
    · exact Except.noConfusion h
    rcases hfs : from_shape_vec k sub v with e | sq <;> simp only [hfs] at h
    · exact Except.noConfusion h
    rcases hrec : read_subquantizers s q c M k d with e | ⟨rest, q'⟩ <;> simp only [hrec] at h
    · exact Except.noConfusion h
    simp only [Except.ok.injEq, Prod.mk.injEq] at h
    have h1 := readF32s_snd hf
    have h2 := ih hrec
    omega

theorem read_subquantizers_congr {s1 s2 : List Nat} {M k d : Nat} :
    ∀ {count p : Nat}, (∀ q, p ≤ q → s1.drop q = s2.drop q) →
    read_subquantizers s1 p count M k d = read_subquantizers s2 p count M k d := by
  intro count
  induction count with
  | zero =>
    intro p _
    rfl
  | succ c ih =>
    intro p hall
    unfold read_subquantizers
    rcases hdiv : rustDiv d M with e | sub <;> simp only [hdiv]
    have hc : readF32s s2 p (k * sub) = readF32s s1 p (k * sub) :=
      (readF32s_congr (k * sub) (hall p le_rfl)).symm
    rcases hf : readF32s s1 p (k * sub) with _ | ⟨v, q⟩ <;> simp only [hf, hc.trans hf]
    rcases hfs : from_shape_vec k sub v with e | sq <;> simp only [hfs]
    have hq : q = p + 4 * (k * sub) := readF32s_snd hf
    have hall' : ∀ r, q ≤ r → s1.drop r = s2.drop r := by
      intro r hr
      exact hall r (by omega)
    rw [ih hall']

theorem read_body_congr {s1 s2 : List Nat} {p : Nat}
    (hall : ∀ q, p ≤ q → s1.drop q = s2.drop q) :
    read_body s1 p = read_body s2 p := by
  unfold read_body
  have c3 : readU32 s2 p = readU32 s1 p := (readU32_congr (hall p le_rfl)).symm
  rcases h3 : readU32 s1 p with _ | ⟨projFlag, p3⟩ <;> simp only [h3, c3.trans h3]
  obtain rfl := readU32_snd h3
  have c4 : readU32 s2 (p + 4) = readU32 s1 (p + 4) :=
    (readU32_congr (hall _ (by omega))).symm
  rcases h4 : readU32 s1 (p + 4) with _ | ⟨normsFlag, p4⟩ <;> simp only [h4, c4.trans h4]
  obtain rfl := readU32_snd h4
  have c5 : readU32 s2 (p + 4 + 4) = readU32 s1 (p + 4 + 4) :=
    (readU32_congr (hall _ (by omega))).symm
  rcases h5 : readU32 s1 (p + 4 + 4) with _ | ⟨M, p5⟩ <;> simp only [h5, c5.trans h5]
  obtain rfl := readU32_snd h5
  have c6 : readU32 s2 (p + 4 + 4 + 4) = readU32 s1 (p + 4 + 4 + 4) :=
    (readU32_congr (hall _ (by omega))).symm
  rcases h6 : readU32 s1 (p + 4 + 4 + 4) with _ | ⟨d, p6⟩ <;> simp only [h6, c6.trans h6]
  obtain rfl := readU32_snd h6
  have c7 : readU32 s2 (p + 4 + 4 + 4 + 4) = readU32 s1 (p + 4 + 4 + 4 + 4) :=
    (readU32_congr (hall _ (by omega))).symm
  rcases h7 : readU32 s1 (p + 4 + 4 + 4 + 4) with _ | ⟨k, p7⟩ <;> simp only [h7, c7.trans h7]
  obtain rfl := readU32_snd h7
  have c8 : readU64 s2 (p + 4 + 4 + 4 + 4 + 4) = readU64 s1 (p + 4 + 4 + 4 + 4 + 4) :=
    (readU64_congr (hall _ (by omega))).symm
  rcases h8 : readU64 s1 (p + 4 + 4 + 4 + 4 + 4) with _ | ⟨n, p8⟩ <;>
    simp only [h8, c8.trans h8]
  obtain rfl := readU64_snd h8
  have c9 : ensure_data_type s2 (p + 4 + 4 + 4 + 4 + 4 + 8) u8TypeId
      = ensure_data_type s1 (p + 4 + 4 + 4 + 4 + 4 + 8) u8TypeId :=
    (ensure_data_type_congr (hall _ (by omega))).symm
  rcases h9 : ensure_data_type s1 (p + 4 + 4 + 4 + 4 + 4 + 8) u8TypeId with e | p9 <;>
    simp only [h9, c9.trans h9]
  obtain rfl := ensure_data_type_inv h9
  have c10 : ensure_data_type s2 (p + 4 + 4 + 4 + 4 + 4 + 8 + 4) f32TypeId
      = ensure_data_type s1 (p + 4 + 4 + 4 + 4 + 4 + 8 + 4) f32TypeId :=
    (ensure_data_type_congr (hall _ (by omega))).symm
  rcases h10 : ensure_data_type s1 (p + 4 + 4 + 4 + 4 + 4 + 8 + 4) f32TypeId with e | p10 <;>
    simp only [h10, c10.trans h10]
  obtain rfl := ensure_data_type_inv h10
  have cpr : read_projection s2
      (p + 4 + 4 + 4 + 4 + 4 + 8 + 4 + 4 + padding4 (p + 4 + 4 + 4 + 4 + 4 + 8 + 4 + 4))
      (projFlag != 0) d
      = read_projection s1
      (p + 4 + 4 + 4 + 4 + 4 + 8 + 4 + 4 + padding4 (p + 4 + 4 + 4 + 4 + 4 + 8 + 4 + 4))
      (projFlag != 0) d :=
    (read_projection_congr (hall _ (by omega))).symm
  rcases hpr : read_projection s1
      (p + 4 + 4 + 4 + 4 + 4 + 8 + 4 + 4 + padding4 (p + 4 + 4 + 4 + 4 + 4 + 8 + 4 + 4))
      (projFlag != 0) d with e | ⟨proj, p12⟩ <;> simp only [hpr, cpr.trans hpr]
  have hle12 : p + 4 + 4 + 4 + 4 + 4 + 8 + 4 + 4
      + padding4 (p + 4 + 4 + 4 + 4 + 4 + 8 + 4 + 4) ≤ p12 := read_projection_le hpr
  have csq : read_subquantizers s2 p12 M M k d = read_subquantizers s1 p12 M M k d :=
    (read_subquantizers_congr (fun r hr => hall r (by omega))).symm
  rcases hsq : read_subquantizers s1 p12 M M k d with e | ⟨qs, p13⟩ <;>
    simp only [hsq, csq.trans hsq]
  have hle13 : p12 ≤ p13 := read_subquantizers_le hsq
  have cnm : read_norms s2 p13 (normsFlag != 0) n = read_norms s1 p13 (normsFlag != 0) n :=
    (read_norms_congr (hall p13 (by omega))).symm
  rcases hnm : read_norms s1 p13 (normsFlag != 0) n with e | ⟨normsV, p14⟩ <;>
    simp only [hnm, cnm.trans hnm]
  have hle14 : p13 ≤ p14 := read_norms_le hnm
  have craw : readRaw s2 p14 (n * M) = readRaw s1 p14 (n * M) :=
    (readRaw_congr (hall p14 (by omega)) (n * M)).symm
  rcases hraw : readRaw s1 p14 (n * M) with _ | ⟨bytes, p15⟩ <;>
    simp only [hraw, craw.trans hraw]

theorem readU64_eq_none_iff {s : List Nat} {p : Nat} :
    readU64 s p = none ↔ s.length < p + 8 := by
  unfold readU64 readBytes takeExact
  split
  · rename_i hcond
    simp only [Option.map_some']
    constructor
    · intro hx
      exact Option.noConfusion hx
    · intro hx
      simp only [List.length_take, List.length_drop] at hcond
      omega
  · rename_i hcond
    simp only [Option.map_none']
    constructor
    · intro _
      simp only [List.length_take, List.length_drop] at hcond
      omega
    · intro _
      trivial

/-- Claim C9: read_chunk reads the declared u64 payload length but never uses
its value: two streams of equal length that agree on the four tag bytes
at the chunk start and agree byte-for-byte from the end of the length
field on (offset pos + 12) decode to the same result, whatever stands
in the length field. -/
theorem claim_C9_length_field_not_used (s1 s2 : List Nat) (pos : Nat)
    (hlen : s1.length = s2.length)
    (htag : (s1.drop pos).take 4 = (s2.drop pos).take 4)
    (htail : s1.drop (pos + 12) = s2.drop (pos + 12)) :
    read_chunk s1 pos = read_chunk s2 pos := by
  unfold read_chunk
  have htagr : readU32 s1 pos = readU32 s2 pos := by
    unfold readU32 readBytes takeExact
    rw [htag]
  have hect : ensure_chunk_type s1 pos quantizedArrayId
      = ensure_chunk_type s2 pos quantizedArrayId := by
    unfold ensure_chunk_type
    rw [htagr]
  rcases he : ensure_chunk_type s2 pos quantizedArrayId with e | p1 <;>
    simp only [hect, he]
  obtain rfl := ensure_chunk_type_inv he
  rcases hl1 : readU64 s1 (pos + 4) with _ | ⟨len1, q1⟩ <;>
    rcases hl2 : readU64 s2 (pos + 4) with _ | ⟨len2, q2⟩ <;>
    simp only [hl1, hl2]
  · exfalso
    have ha := readU64_eq_none_iff.mp hl1
    have hb : ¬ s2.length < pos + 4 + 8 := by
      intro hx
      rw [readU64_eq_none_iff.mpr hx] at hl2
      exact Option.noConfusion hl2
    omega
  · exfalso
    have ha := readU64_eq_none_iff.mp hl2
    have hb : ¬ s1.length < pos + 4 + 8 := by
      intro hx
      rw [readU64_eq_none_iff.mpr hx] at hl1
      exact Option.noConfusion hl1
    omega
  · obtain rfl := readU64_snd hl1
    obtain rfl := readU64_snd hl2
    exact read_body_congr (drop_eq_mono (by
      have : pos + 4 + 8 = pos + 12 := by omega
      rw [this]
      exact htail))

/-- Witness for C9: the chunk bytes of a concrete array and the same
bytes with the length field overwritten decode identically. -/
theorem claim_C9_witness :
    read_chunk (write_chunk wArr 0) 0 = read_chunk ((write_chunk wArr 0).set 4 99) 0 :=
  claim_C9_length_field_not_used (write_chunk wArr 0) ((write_chunk wArr 0).set 4 99) 0
    (by decide) (by decide) (by decide)

end Finalfusion
